import Mathlib

/-!
Verification of the typo-classification cascade and vocabulary maintenance of
`rozental_as_a_service` (`rozental.py`).

The orchestrator `fetch_typos_info`, the maintenance operation
`reorder_vocabulary` and the extraction helper `extract_all_constants_from_files`
are embedded from the source.  The three typo backends, the chunker, `flat`,
`get_content_from_file` and `extract_words` live in modules that are not part of
the source tree at hand; they are modelled from the specification, as their doc
comments state.  File contents are modelled as `List Char`; file system, cache
store and the remote speller service are passed in explicitly as data.
-/

namespace Rozental

/-- One confirmed misspelling plus its ranked suggested corrections.
Mirrors `TypoInfo` from `common_types.py`. -/
structure TypoInfo where
  original : String
  possible_options : List String
deriving DecidableEq, Repr

/-- A persisted cache classification outcome for one word. -/
inductive CacheStatus
  | correct
  | typo
deriving DecidableEq, Repr

/-- A cache-store entry: classification status plus suggestion list. -/
structure CacheEntry where
  status : CacheStatus
  suggestions : List String
deriving DecidableEq, Repr

/-- Per-word verdict of the remote spelling service on a batch it was asked
about: clean, misspelled with ranked suggestions, or omitted from the answer. -/
inductive SpellerVerdict
  | clean
  | misspelled (suggestions : List String)
  | omitted

/-- Modelled from the spec: `BackendsConfig` (`common_types.py`, not in the given
source tree).  The `vocabulary_path` and `db_path` fields are replaced by the
external state they name — the vocabulary word list and the persistent cache
store — and the remote spelling service is added as a function from a batch of
words to either a network failure (`Except.error`) or a per-word verdict. -/
structure BackendsConfig where
  vocabulary : List String
  db : String → Option CacheEntry
  speller_chunk_size : Nat
  service : List String → Except Unit (String → SpellerVerdict)

/-- Modelled from the spec: `chunks` (`list_utils.py`, not in the given source
tree) — contiguous sub-sequences of at most `n` elements covering the input
exactly once, in order, the last chunk possibly shorter.  The spec makes a
non-positive chunk size an error; with `n = 0` this embedding returns `[]`, and
claims that need coverage assume `0 < n`. -/
def chunks : List α → Nat → List (List α)
  | [], _ => []
  | _ :: _, 0 => []
  | a :: t, (n+1) =>
    (a :: t).take (n+1) :: chunks ((a :: t).drop (n+1)) (n+1)
termination_by l => l.length
decreasing_by
  simp only [List.length_drop, List.length_cons]
  omega

/-- Modelled from the spec: `flat` (`list_utils.py`, not in the given source
tree) — concatenation of a list of lists. -/
def flat (l : List (List α)) : List α := l.flatten

/-- The shape of a typo backend (`typos_backends.py`): a chunk of candidate
words plus the configuration, returning the three-way partition
`(sure_correct, sure_with_typo_info, unknown)`. -/
abbrev TyposBackend :=
  List String → BackendsConfig → List String × List TypoInfo × List String

/-- Lower-casing used for the vocabulary's case-insensitive match. -/
def lowerStr (s : String) : String := ⟨s.data.map Char.toLower⟩

/-- The vocabulary match: case-insensitive exact membership in the flattened
vocabulary word list. -/
def in_vocabulary (config : BackendsConfig) (w : String) : Bool :=
  (config.vocabulary.map lowerStr).contains (lowerStr w)

/-- Modelled from the spec: `process_with_vocabulary` (`typos_backends.py`, not
in the given source tree) — words matched by the vocabulary are `sure_correct`,
this backend never flags typos, unmatched words are forwarded as `unknown`. -/
def process_with_vocabulary : TyposBackend := fun words config =>
  (words.filter (fun w => in_vocabulary config w),
   [],
   words.filter (fun w => !in_vocabulary config w))

/-- The cache store reports the word as correct. -/
def cacheSaysCorrect (config : BackendsConfig) (w : String) : Bool :=
  match config.db w with
  | some e => decide (e.status = CacheStatus.correct)
  | none => false

/-- The cache store reports the word as a typo. -/
def cacheSaysTypo (config : BackendsConfig) (w : String) : Bool :=
  match config.db w with
  | some e => decide (e.status = CacheStatus.typo)
  | none => false

/-- The suggestion list the cache store holds for a word (empty on a miss). -/
def cachedSuggestions (config : BackendsConfig) (w : String) : List String :=
  match config.db w with
  | some e => e.suggestions
  | none => []

/-- Modelled from the spec: `process_with_db_with_cache` (`typos_backends.py`,
not in the given source tree) — a hit with `correct` status is `sure_correct`, a
hit with `typo` status yields a `TypoInfo` with the cached suggestion list, a
miss is forwarded as `unknown`. -/
def process_with_db_with_cache : TyposBackend := fun words config =>
  (words.filter (fun w => cacheSaysCorrect config w),
   (words.filter (fun w => cacheSaysTypo config w)).map
     (fun w => ⟨w, cachedSuggestions config w⟩),
   words.filter (fun w => (config.db w).isNone))

/-- One remote sub-chunk: ask the service; a network failure degrades the whole
sub-chunk to `unknown`, a response classifies each word by its verdict. -/
def speller_sub_chunk (config : BackendsConfig) (sub : List String) :
    List String × List TypoInfo × List String :=
  match config.service sub with
  | Except.error _ => ([], [], sub)
  | Except.ok verdict =>
    (sub.filter (fun w => match verdict w with
       | SpellerVerdict.clean => true
       | _ => false),
     sub.filterMap (fun w => match verdict w with
       | SpellerVerdict.misspelled sugg => some ⟨w, sugg⟩
       | _ => none),
     sub.filter (fun w => match verdict w with
       | SpellerVerdict.omitted => true
       | _ => false))

/-- Modelled from the spec: `process_with_ya_speller` (`typos_backends.py`, not
in the given source tree) — batch the residue into sub-chunks of at most
`speller_chunk_size`, one service request per sub-chunk, failures degraded to
`unknown` per sub-chunk.  (The write-back of resolved words into the cache store
is a side effect no claim here depends on and is not modelled.) -/
def process_with_ya_speller : TyposBackend := fun words config =>
  let results := (chunks words config.speller_chunk_size).map
    (speller_sub_chunk config)
  (flat (results.map (fun r => r.1)),
   flat (results.map (fun r => r.2.1)),
   flat (results.map (fun r => r.2.2)))

/-- The fixed backend cascade of `fetch_typos_info` (rozental.py lines 90-94):
vocabulary, then cache, then remote speller. -/
def backends : List TyposBackend :=
  [process_with_vocabulary, process_with_db_with_cache, process_with_ya_speller]

/-- `fetch_typos_info` (rozental.py lines 87-108).  The outer loop folds over
the chunks of the candidate words; the inner loop folds the backend list over
the state `(typos_info, words_chunk)`, appending each backend's
`sure_with_typo_info` and reassigning the loop variable to its `unknown`
residue.  The configuration is a parameter here because in the source it merely
packages the external state (vocabulary file, cache store, remote service,
`DEFAULT_WORDS_CHUNK_SIZE` from `config.py`) that this embedding passes in as
data. -/
def fetch_typos_info (config : BackendsConfig) (string_constants : List String) :
    List TypoInfo :=
  (chunks string_constants config.speller_chunk_size).foldl
    (fun typos_info words_chunk =>
      (backends.foldl
        (fun (state : List TypoInfo × List String) words_processor =>
          let r := words_processor state.2 config
          (state.1 ++ r.2.1, r.2.2))
        (typos_info, words_chunk)).1)
    []

/-- The cascade of one chunk, written as a recursion over the backend list:
accumulated typo findings plus the final residue. -/
def runBackends (config : BackendsConfig) :
    List TyposBackend → List String → List TypoInfo × List String
  | [], words_chunk => ([], words_chunk)
  | b :: bs, words_chunk =>
    let r := b words_chunk config
    let rest := runBackends config bs r.2.2
    (r.2.1 ++ rest.1, rest.2)

/-- The successive inputs the inner loop of `fetch_typos_info` hands to each
backend: the first backend receives the chunk itself, every later backend
receives the `unknown` residue of the previous one. -/
def backendInputs (config : BackendsConfig) :
    List TyposBackend → List String → List (List String)
  | [], _ => []
  | b :: bs, words_chunk =>
    words_chunk :: backendInputs config bs (b words_chunk config).2.2

/-- The per-backend `sure_with_typo_info` outputs along the cascade of one
chunk, in backend order. -/
def backendTypoOutputs (config : BackendsConfig) :
    List TyposBackend → List String → List (List TypoInfo)
  | [], _ => []
  | b :: bs, words_chunk =>
    (b words_chunk config).2.1 ::
      backendTypoOutputs config bs (b words_chunk config).2.2

/-- `w` is resolved by backend `b` on input `ws`: it is classified
`sure_correct` or turned into a `TypoInfo`. -/
def resolvedBy (config : BackendsConfig) (b : TyposBackend) (ws : List String)
    (w : String) : Prop :=
  w ∈ (b ws config).1 ∨ ∃ t ∈ (b ws config).2.1, t.original = w

/-- The `unknown` residue the vocabulary backend forwards for one chunk. -/
def vocabResidue (config : BackendsConfig) (c : List String) : List String :=
  (process_with_vocabulary c config).2.2

/-- The `unknown` residue the cache backend forwards for one chunk: the input
the remote-speller backend receives. -/
def cacheResidue (config : BackendsConfig) (c : List String) : List String :=
  (process_with_db_with_cache (vocabResidue config c) config).2.2

/-- All words handed to the remote-speller backend over a whole run of
`fetch_typos_info`: per outer chunk, the residue left after the vocabulary and
cache backends. -/
def remoteInputs (config : BackendsConfig) (string_constants : List String) :
    List String :=
  flat ((chunks string_constants config.speller_chunk_size).map
    (cacheResidue config))

/-- Modelled from the spec: the file system behind `get_content_from_file`
(`files_utils.py`, not in the given source tree): one read oracle per mode
(plain read, read with encoding guessing); `none` when no content could be
obtained. -/
structure FileSystem where
  readPlain : String → Option String
  readGuess : String → Option String

/-- Modelled from the spec: `get_content_from_file` (`files_utils.py`, not in
the given source tree) — read a file, optionally guessing the encoding. -/
def get_content_from_file (fs : FileSystem) (filepath : String)
    (guess_encoding : Bool) : Option String :=
  if guess_encoding then fs.readGuess filepath else fs.readPlain filepath

/-- The read sequence of rozental.py lines 77-79: plain read first, then with
encoding guessing. -/
def readFileContent (fs : FileSystem) (filepath : String) : Option String :=
  match get_content_from_file fs filepath false with
  | some raw_content => some raw_content
  | none => get_content_from_file fs filepath true

/-- Maximal alphanumeric runs of a character list (accumulator holds the
current run, reversed). -/
def tokensAux : List Char → List Char → List (List Char)
  | [], acc => if acc.isEmpty then [] else [acc.reverse]
  | c :: cs, acc =>
    if c.isAlphanum then tokensAux cs (c :: acc)
    else if acc.isEmpty then tokensAux cs []
    else acc.reverse :: tokensAux cs []

/-- Modelled from the spec: `extract_words` (`extractors_utils.py`, not in the
given source tree) — the word normalizer: tokenize each raw string into
alphanumeric runs, lowercase, keep tokens of length at least the default
minimum 3, deduplicate. -/
def extract_words (string_constants : List String) : List String :=
  ((flat (string_constants.map
      (fun s => (tokensAux s.data []).map
        (fun t => String.mk (t.map Char.toLower))))).filter
    (fun w => 3 ≤ w.length)).dedup

/-- The inner loop of `extract_all_constants_from_files` for one file
(rozental.py lines 75-83): per extractor, re-read the file and append the
extracted constants; `none` models the early `return []` when the file yields
no content in either read mode. -/
def runExtractors (fs : FileSystem) (filepath : String) :
    List (String → List String) → Option (List String)
  | [] => some []
  | extractor_callable :: rest =>
    match readFileContent fs filepath with
    | none => none
    | some raw_content =>
      match runExtractors fs filepath rest with
      | none => none
      | some strs => some (extractor_callable raw_content ++ strs)

/-- The outer loop of `extract_all_constants_from_files` over the file batch,
threading the accumulated string constants. -/
def filesLoop (fs : FileSystem) (extractors : List (String → List String)) :
    List String → List String → Option (List String)
  | [], string_constants => some string_constants
  | filepath :: rest, string_constants =>
    match runExtractors fs filepath extractors with
    | none => none
    | some strs => filesLoop fs extractors rest (string_constants ++ strs)

/-- `extract_all_constants_from_files` (rozental.py lines 72-84): walk the
files, apply every extractor to each, abort with `[]` as soon as a file yields
no content in either read mode, otherwise normalize the deduplicated constants
with `extract_words`.  (Python's `list(set(...))` is modelled as `dedup`; its
iteration order is unspecified and nothing here depends on it.) -/
def extract_all_constants_from_files (fs : FileSystem)
    (files_pathes : List String) (extractors : List (String → List String)) :
    List String :=
  match filesLoop fs extractors files_pathes [] with
  | none => []
  | some string_constants => extract_words string_constants.dedup

/-- Python `str.strip` whitespace (the ASCII whitespace characters). -/
def isSpace (c : Char) : Bool :=
  c == ' ' || c == '\t' || c == '\n' || c == '\r' || c == '\x0b' || c == '\x0c'

/-- Python `line.strip()` on a line modelled as a character list. -/
def strip (l : List Char) : List Char :=
  ((l.dropWhile isSpace).reverse.dropWhile isSpace).reverse

/-- Split file contents into lines at each newline character (terminators not
kept; `readlines` keeps them, but every line is immediately `strip`ped by the
source, which erases the difference). -/
def splitLines : List Char → List (List Char)
  | [] => [[]]
  | c :: cs =>
    if c = '\n' then [] :: splitLines cs
    else
      match splitLines cs with
      | [] => [[c]]
      | l :: ls => (c :: l) :: ls

/-- Python `processed_line.startswith('#')`. -/
def startsWithHash : List Char → Bool
  | [] => false
  | c :: _ => c == '#'

/-- The stripped, non-blank lines of the vocabulary file, in order
(rozental.py lines 116-119). -/
def cleanLines (content : List Char) : List (List Char) :=
  ((splitLines content).map strip).filter (fun l => !l.isEmpty)

/-- The sectioning loop of `reorder_vocabulary` (rozental.py lines 114-125):
a header line starts a new section whenever the current section is non-empty;
the final non-empty current section is appended. -/
def buildSections :
    List (List Char) → List (List Char) → List (List (List Char))
  | current_section, [] =>
    if current_section.isEmpty then [] else [current_section]
  | current_section, processed_line :: rest =>
    if startsWithHash processed_line && !current_section.isEmpty then
      current_section :: buildSections [processed_line] rest
    else
      buildSections (current_section ++ [processed_line]) rest

/-- Lexicographic code-point order on lines, Python's string `<=`. -/
def lineLe : List Char → List Char → Bool
  | [], _ => true
  | _ :: _, [] => false
  | a :: as, b :: bs =>
    if a.toNat < b.toNat then true
    else if b.toNat < a.toNat then false
    else lineLe as bs

/-- Python `sorted` on lines: the unique `lineLe`-sorted permutation. -/
def sortLines (ls : List (List Char)) : List (List Char) :=
  ls.mergeSort lineLe

/-- One output section of `reorder_vocabulary` (rozental.py lines 128-131,
without the conditional blank separator): the header lines, newline-terminated,
followed by the sorted newline-terminated entry lines — the source sorts the
strings `f'{l}\n'`. -/
def renderSection (sec : List (List Char)) : List (List Char) :=
  (sec.filter startsWithHash).map (fun l => l ++ ['\n'])
    ++ sortLines ((sec.filter (fun l => !startsWithHash l)).map
      (fun l => l ++ ['\n']))

/-- All output lines of `reorder_vocabulary`: the rendered sections with a
blank line (a bare newline) after every section but the last (rozental.py
line 131). -/
def renderSections : List (List (List Char)) → List (List Char)
  | [] => []
  | [sec] => renderSection sec
  | sec :: rest => renderSection sec ++ ['\n'] :: renderSections rest

/-- `reorder_vocabulary` (rozental.py lines 111-135) as a transformation of the
file contents: what the rewritten file holds in terms of what was read. -/
def reorder_vocabulary (content : List Char) : List Char :=
  flat (renderSections (buildSections [] (cleanLines content)))

/-- Does a section group start with a header line? -/
def groupStartsWithHeader : List (List Char) → Bool
  | [] => false
  | l :: _ => startsWithHash l

/-- Splitting lines into sections on header lines, written as the spec says it:
every header line begins a section; leading non-header lines form a headerless
first section. -/
def splitOnHeaders : List (List Char) → List (List (List Char))
  | [] => []
  | l :: rest =>
    match splitOnHeaders rest with
    | [] => [[l]]
    | g :: gs =>
      if groupStartsWithHeader g then [l] :: g :: gs else (l :: g) :: gs

/-- The vocabulary file format's own sectioning (spec §6: blank lines separate
sections), as a grouping of the line list: a blank line opens a fresh (empty)
group, a non-blank line joins the front group. -/
def splitOnBlankLines : List (List Char) → List (List (List Char))
  | [] => []
  | l :: rest =>
    if l.isEmpty then [] :: splitOnBlankLines rest
    else
      match splitOnBlankLines rest with
      | [] => [[l]]
      | g :: gs => (l :: g) :: gs

/-- The blank-line-delimited sections of a vocabulary file: the maximal runs of
non-blank lines of its contents.  This is the format-level notion of a section,
independent of how `reorder_vocabulary` groups lines internally. -/
def blankSections (content : List Char) : List (List (List Char)) :=
  (splitOnBlankLines (splitLines content)).filter (fun g => !g.isEmpty)

/-- Follows the spec's words (§4.7): drop blank lines, split the rest into
sections on header lines, within each section keep the header lines at the top
and sort the newline-terminated entry lines case-sensitively, and join the
sections with exactly one blank line between them and none after the last. -/
def reorder_vocabulary_spec (content : List Char) : List Char :=
  flat (((splitOnHeaders (cleanLines content)).map
    (fun sec => flat (renderSection sec))).intersperse ['\n'])

/-- The stripped lines an output section of `reorder_vocabulary` contributes
back when the output file is read again: the headers, then the sorted entries
with their terminating newline removed. -/
def coreRender (sec : List (List Char)) : List (List Char) :=
  sec.filter startsWithHash
    ++ (sortLines ((sec.filter (fun l => !startsWithHash l)).map
      (fun l => l ++ ['\n']))).map List.dropLast

/-- How a pending current section combines with the groups of the remaining
lines: it stays separate before a header-led group and merges into a headerless
one (analysis helper for the sectioning loop). -/
def consumeCur (cur : List (List Char)) :
    List (List (List Char)) → List (List (List Char))
  | [] => [cur]
  | g :: gs =>
    if groupStartsWithHeader g then cur :: g :: gs else (cur ++ g) :: gs

/-- A newline-terminated output line: a newline-free core followed by `'\n'`. -/
def NLine (l : List Char) : Prop :=
  ∃ m, '\n' ∉ m ∧ l = m ++ ['\n']

/-- A line as produced by `cleanLines`: non-empty, fixed by `strip`, and free of
newline characters. -/
def GoodLine (l : List Char) : Prop :=
  l ≠ [] ∧ strip l = l ∧ '\n' ∉ l

/-- Concrete run for the C1 witness. -/
def cfgC1 : BackendsConfig :=
  ⟨["ok"], fun _ => none, 2, fun _ => Except.error ()⟩

/-- Concrete run for the C2 witness: the cache calls everything a typo and the
remote service flags everything, yet the vocabulary word stays clean. -/
def cfgC2 : BackendsConfig :=
  ⟨["hello"], fun _ => some ⟨CacheStatus.typo, ["x"]⟩, 3,
   fun _ => Except.ok (fun _ => SpellerVerdict.misspelled ["y"])⟩

/-- Concrete run for the C3 witness. -/
def cfgC3 : BackendsConfig :=
  ⟨[], fun w => if w = "teh" then some ⟨CacheStatus.typo, ["the"]⟩ else none, 4,
   fun _ => Except.error ()⟩

/-- Concrete run for the C4 witness: the remote service is down. -/
def cfgC4 : BackendsConfig :=
  ⟨[], fun _ => none, 1, fun _ => Except.error ()⟩

/-- Concrete file system for the C9 witness: nothing is readable. -/
def fsC9 : FileSystem :=
  ⟨fun _ => none, fun _ => none⟩

/-- Concrete extractor list for the C9 witness. -/
def extractorsC9 : List (String → List String) :=
  [fun _ => []]

section CascadeLemmas

/-- The imperative inner loop equals the recursive cascade. -/
theorem foldl_backends_eq_runBackends (config : BackendsConfig)
    (bs : List TyposBackend) (acc : List TypoInfo) (ws : List String) :
    bs.foldl
      (fun (state : List TypoInfo × List String) words_processor =>
        let r := words_processor state.2 config
        (state.1 ++ r.2.1, r.2.2))
      (acc, ws)
      = (acc ++ (runBackends config bs ws).1, (runBackends config bs ws).2) := by
  induction bs generalizing acc ws with
  | nil => simp [runBackends]
  | cons b bs ih =>
    simp only [List.foldl_cons, runBackends, ih, List.append_assoc]

/-- Folding list-append of a pointwise image equals appending the flattened
image. -/
theorem foldl_append_flat (g : β → List γ) (cs : List β) (acc : List γ) :
    cs.foldl (fun a c => a ++ g c) acc = acc ++ flat (cs.map g) := by
  induction cs generalizing acc with
  | nil => simp [flat]
  | cons c cs ih => simp [flat, ih]

/-- `fetch_typos_info` as flat-map of the recursive cascade over the chunks. -/
theorem fetch_typos_info_eq_flatMap (config : BackendsConfig)
    (string_constants : List String) :
    fetch_typos_info config string_constants =
      flat ((chunks string_constants config.speller_chunk_size).map
        (fun c => (runBackends config backends c).1)) := by
  unfold fetch_typos_info
  simp only [foldl_backends_eq_runBackends]
  simpa using foldl_append_flat (fun c => (runBackends config backends c).1)
    (chunks string_constants config.speller_chunk_size) []

/-- With a positive chunk size, the chunks concatenate back to the input. -/
theorem chunks_flatten {α : Type _} (l : List α) (n : Nat) (hn : 0 < n) :
    flat (chunks l n) = l := by
  induction l, n using chunks.induct with
  | case1 n => simp [chunks, flat]
  | case2 a t => omega
  | case3 a t n ih =>
    simp only [chunks, flat, List.flatten_cons]
    rw [← flat, ih (by omega)]
    exact List.take_append_drop _ _

/-- Every element of a chunk is an element of the chunked list. -/
theorem mem_of_mem_chunks {α : Type _} {l : List α} {n : Nat} {c : List α}
    (hc : c ∈ chunks l n) {x : α} (hx : x ∈ c) : x ∈ l := by
  induction l, n using chunks.induct with
  | case1 n => simp [chunks] at hc
  | case2 a t => simp [chunks] at hc
  | case3 a t n ih =>
    simp only [chunks, List.mem_cons] at hc
    rcases hc with rfl | hc
    · exact List.mem_of_mem_take hx
    · exact List.mem_of_mem_drop (ih hc)

/-- With a positive chunk size, every element of the list lies in some chunk. -/
theorem exists_chunk_of_mem {α : Type _} {l : List α} {n : Nat} (hn : 0 < n)
    {x : α} (hx : x ∈ l) : ∃ c ∈ chunks l n, x ∈ c := by
  have h : x ∈ flat (chunks l n) := by rw [chunks_flatten l n hn]; exact hx
  simpa [flat, List.mem_flatten] using h

/-- The inner loop hands one input to each backend. -/
theorem backendInputs_length (config : BackendsConfig) (bs : List TyposBackend)
    (ws : List String) : (backendInputs config bs ws).length = bs.length := by
  induction bs generalizing ws with
  | nil => simp [backendInputs]
  | cons b bs ih => simp [backendInputs, ih]

/-- The accumulated findings of the recursive cascade are the concatenation of
the per-backend `sure_with_typo_info` outputs, in backend order. -/
theorem runBackends_fst_eq (config : BackendsConfig) (bs : List TyposBackend)
    (ws : List String) :
    (runBackends config bs ws).1 = flat (backendTypoOutputs config bs ws) := by
  induction bs generalizing ws with
  | nil => simp [runBackends, backendTypoOutputs, flat]
  | cons b bs ih => simp [runBackends, backendTypoOutputs, flat, ih]

/-- A word the cache reports correct is not a cache miss. -/
theorem cacheSaysCorrect_not_isNone {config : BackendsConfig} {w : String}
    (h : cacheSaysCorrect config w = true) : (config.db w).isNone = false := by
  unfold cacheSaysCorrect at h
  cases hdb : config.db w <;> simp [hdb] at h ⊢

/-- A word the cache reports as a typo is not a cache miss. -/
theorem cacheSaysTypo_not_isNone {config : BackendsConfig} {w : String}
    (h : cacheSaysTypo config w = true) : (config.db w).isNone = false := by
  unfold cacheSaysTypo at h
  cases hdb : config.db w <;> simp [hdb] at h ⊢

/-- Each cache-produced finding records a word of the cache backend's input that
the cache store reports as a typo. -/
theorem cache_typo_original {config : BackendsConfig} {ws : List String}
    {t : TypoInfo} (ht : t ∈ (process_with_db_with_cache ws config).2.1) :
    t.original ∈ ws ∧ cacheSaysTypo config t.original = true := by
  simp only [process_with_db_with_cache, List.mem_map, List.mem_filter] at ht
  obtain ⟨w, ⟨hw, hsays⟩, rfl⟩ := ht
  exact ⟨hw, hsays⟩

/-- Each remote-produced finding comes from a sub-chunk whose service call
succeeded, and its original word lies in that sub-chunk, hence in the remote
backend's input. -/
theorem speller_typo_elim {config : BackendsConfig} {ws : List String}
    {t : TypoInfo} (ht : t ∈ (process_with_ya_speller ws config).2.1) :
    ∃ sub, t.original ∈ sub ∧ (∃ v, config.service sub = Except.ok v) ∧
      ∀ x ∈ sub, x ∈ ws := by
  simp only [process_with_ya_speller, flat, List.mem_flatten, List.mem_map] at ht
  obtain ⟨_, ⟨_, ⟨sub, hsub, rfl⟩, rfl⟩, ht⟩ := ht
  refine ⟨sub, ?_, ?_, fun x hx => mem_of_mem_chunks hsub hx⟩
  · unfold speller_sub_chunk at ht
    cases hsv : config.service sub with
    | error e => simp [hsv] at ht
    | ok v =>
      simp only [hsv, List.mem_filterMap] at ht
      obtain ⟨a, ha, hat⟩ := ht
      cases hva : v a <;> simp [hva] at hat
      cases hat; simpa using ha
  · unfold speller_sub_chunk at ht
    cases hsv : config.service sub with
    | error e => simp [hsv] at ht
    | ok v => exact ⟨v, rfl⟩

/-- Membership in the vocabulary backend's `unknown` residue. -/
theorem vocab_unknown_mem {config : BackendsConfig} {ws : List String}
    {w : String} :
    w ∈ (process_with_vocabulary ws config).2.2 ↔
      w ∈ ws ∧ in_vocabulary config w = false := by
  simp [process_with_vocabulary, List.mem_filter]

/-- Membership in the cache backend's `unknown` residue. -/
theorem cache_unknown_mem {config : BackendsConfig} {ws : List String}
    {w : String} :
    w ∈ (process_with_db_with_cache ws config).2.2 ↔
      w ∈ ws ∧ (config.db w).isNone = true := by
  simp [process_with_db_with_cache, List.mem_filter]

/-- A word the vocabulary backend resolves is vocabulary-matched. -/
theorem vocab_resolved_matched {config : BackendsConfig} {ws : List String}
    {w : String} (h : resolvedBy config process_with_vocabulary ws w) :
    in_vocabulary config w = true := by
  rcases h with h | h
  · exact (List.mem_filter.mp h).2
  · simp [process_with_vocabulary] at h

/-- A word the cache backend resolves has a cache-store hit. -/
theorem cache_resolved_not_miss {config : BackendsConfig} {ws : List String}
    {w : String} (h : resolvedBy config process_with_db_with_cache ws w) :
    (config.db w).isNone = false := by
  rcases h with h | h
  · exact cacheSaysCorrect_not_isNone (List.mem_filter.mp h).2
  · obtain ⟨t, ht, rfl⟩ := h
    exact cacheSaysTypo_not_isNone (cache_typo_original ht).2

/-- On one chunk the cascade's findings are exactly the cache backend's
findings on the vocabulary residue followed by the remote backend's findings on
the cache residue (the vocabulary backend never produces findings). -/
theorem runBackends_backends_fst (config : BackendsConfig) (c : List String) :
    (runBackends config backends c).1 =
      (process_with_db_with_cache (vocabResidue config c) config).2.1 ++
        (process_with_ya_speller (cacheResidue config c) config).2.1 := by
  simp [backends, runBackends, process_with_vocabulary, vocabResidue,
    cacheResidue]

/-- The three backend inputs on one chunk: the chunk, the vocabulary residue,
the cache residue. -/
theorem backendInputs_backends (config : BackendsConfig) (c : List String) :
    backendInputs config backends c =
      [c, vocabResidue config c, cacheResidue config c] := by
  simp [backends, backendInputs, vocabResidue, cacheResidue]

end CascadeLemmas

section CascadeClaims

/-- C1: on each outer chunk, `fetch_typos_info` runs the three backends in the
fixed order vocabulary, cache, remote speller, and threads only the `unknown`
residue of each backend into the next, so a word classified `sure_correct` or
turned into a typo finding by one backend never appears in a later backend's
input during that run. -/
theorem fetch_cascade_fixed_order_no_reentry (config : BackendsConfig)
    (string_constants : List String) :
    backends = [process_with_vocabulary, process_with_db_with_cache,
      process_with_ya_speller] ∧
    ∀ words_chunk ∈ chunks string_constants config.speller_chunk_size,
      ∀ i j : Nat, ∀ hij : i < j, ∀ hj : j < backends.length, ∀ w : String,
        resolvedBy config (backends.get ⟨i, Nat.lt_trans hij hj⟩)
          ((backendInputs config backends words_chunk).get
            ⟨i, by rw [backendInputs_length]; exact Nat.lt_trans hij hj⟩) w →
        w ∉ (backendInputs config backends words_chunk).get
          ⟨j, by rw [backendInputs_length]; exact hj⟩ := by
  refine ⟨rfl, ?_⟩
  intro c _ i j hij hj w hres hmem
  have hj3 : j < 3 := by simpa [backends] using hj
  have hcases : (i = 0 ∧ j = 1) ∨ (i = 0 ∧ j = 2) ∨ (i = 1 ∧ j = 2) := by omega
  rcases hcases with ⟨hi, hj'⟩ | ⟨hi, hj'⟩ | ⟨hi, hj'⟩ <;> subst hi <;> subst hj' <;>
    simp only [backendInputs_backends, backends, List.get] at hres hmem
  · have h1 := vocab_resolved_matched hres
    have h2 := (vocab_unknown_mem.mp hmem).2
    rw [h1] at h2
    exact Bool.noConfusion h2
  · have h1 := vocab_resolved_matched hres
    have h2 := (vocab_unknown_mem.mp ((cache_unknown_mem.mp hmem).1)).2
    rw [h1] at h2
    exact Bool.noConfusion h2
  · have h1 := cache_resolved_not_miss hres
    have h2 := (cache_unknown_mem.mp hmem).2
    rw [h1] at h2
    exact Bool.noConfusion h2

/-- C2: under the modelled vocabulary backend — which returns every
vocabulary-matched word in its `sure_correct` partition and never in `unknown`
or as a typo — a word present in the vocabulary never occurs among the typo
findings of `fetch_typos_info`, whatever the cache store and the remote service
report. -/
theorem fetch_vocabulary_word_never_typo (config : BackendsConfig)
    (string_constants : List String) (w : String)
    (hvocab : in_vocabulary config w = true) :
    w ∉ (fetch_typos_info config string_constants).map TypoInfo.original := by
  rw [fetch_typos_info_eq_flatMap]
  intro hmem
  simp only [List.mem_map, flat, List.mem_flatten, List.mem_map] at hmem
  obtain ⟨t, ⟨_, ⟨c, hc, rfl⟩, ht⟩, horig⟩ := hmem
  rw [runBackends_backends_fst] at ht
  have hwu1 : in_vocabulary config w = false := by
    rcases List.mem_append.mp ht with ht | ht
    · have h := (cache_typo_original ht).1
      rw [horig] at h
      exact (vocab_unknown_mem.mp ((List.mem_filter.mp h).1 |> fun hh =>
        (by exact h : w ∈ vocabResidue config c))).2
    · obtain ⟨sub, hin, _, hsub⟩ := speller_typo_elim ht
      rw [horig] at hin
      have h2 : w ∈ cacheResidue config c := hsub w hin
      exact (vocab_unknown_mem.mp (cache_unknown_mem.mp h2).1).2
  rw [hvocab] at hwu1
  exact Bool.noConfusion hwu1

/-- C3: a word that misses the vocabulary but has a cache `typo` entry is
reported with the cached suggestion list, and the remote-speller backend is
never handed that word. -/
theorem fetch_cache_typo_no_remote (config : BackendsConfig)
    (string_constants : List String) (w : String) (sugg : List String)
    (hn : 0 < config.speller_chunk_size)
    (hmem : w ∈ string_constants)
    (hvocab : in_vocabulary config w = false)
    (hdb : config.db w = some ⟨CacheStatus.typo, sugg⟩) :
    (⟨w, sugg⟩ : TypoInfo) ∈ fetch_typos_info config string_constants ∧
      w ∉ remoteInputs config string_constants := by
  constructor
  · rw [fetch_typos_info_eq_flatMap]
    obtain ⟨c, hc, hwc⟩ := exists_chunk_of_mem hn hmem
    have hu1 : w ∈ vocabResidue config c := vocab_unknown_mem.mpr ⟨hwc, hvocab⟩
    have hsays : cacheSaysTypo config w = true := by simp [cacheSaysTypo, hdb]
    have hsugg : cachedSuggestions config w = sugg := by
      simp [cachedSuggestions, hdb]
    have ht : (⟨w, sugg⟩ : TypoInfo) ∈
        (process_with_db_with_cache (vocabResidue config c) config).2.1 := by
      simp only [process_with_db_with_cache, List.mem_map]
      exact ⟨w, List.mem_filter.mpr ⟨hu1, hsays⟩, by rw [hsugg]⟩
    simp only [flat, List.mem_flatten, List.mem_map]
    refine ⟨_, ⟨c, hc, rfl⟩, ?_⟩
    rw [runBackends_backends_fst]
    exact List.mem_append.mpr (Or.inl ht)
  · intro hr
    simp only [remoteInputs, flat, List.mem_flatten, List.mem_map] at hr
    obtain ⟨_, ⟨c, hc, rfl⟩, hr⟩ := hr
    have h := (cache_unknown_mem.mp hr).2
    rw [hdb] at h
    simp at h

/-- C4: when the remote service fails on every sub-chunk containing a word that
was handed to the remote backend, that word is absent from the returned typo
list; the run itself still returns (the failure is caught per sub-chunk, and
the remaining chunks are processed independently). -/
theorem fetch_remote_failure_degraded (config : BackendsConfig)
    (string_constants : List String) (w : String)
    (hw : w ∈ remoteInputs config string_constants)
    (hfail : ∀ sub, w ∈ sub → config.service sub = Except.error ()) :
    w ∉ (fetch_typos_info config string_constants).map TypoInfo.original := by
  have hmiss : (config.db w).isNone = true := by
    simp only [remoteInputs, flat, List.mem_flatten, List.mem_map] at hw
    obtain ⟨_, ⟨c0, hc0, rfl⟩, hw⟩ := hw
    exact (cache_unknown_mem.mp hw).2
  rw [fetch_typos_info_eq_flatMap]
  intro hmem
  simp only [List.mem_map, flat, List.mem_flatten, List.mem_map] at hmem
  obtain ⟨t, ⟨_, ⟨c, hc, rfl⟩, ht⟩, horig⟩ := hmem
  rw [runBackends_backends_fst] at ht
  rcases List.mem_append.mp ht with ht | ht
  · have hsays := (cache_typo_original ht).2
    rw [horig] at hsays
    rw [cacheSaysTypo_not_isNone hsays] at hmiss
    exact Bool.noConfusion hmiss
  · obtain ⟨sub, hin, ⟨v, hok⟩, _⟩ := speller_typo_elim ht
    rw [horig] at hin
    rw [hfail sub hin] at hok
    exact Except.noConfusion hok

/-- C5: the list `fetch_typos_info` returns is the concatenation of the
backends' `sure_with_typo_info` outputs, ordered first by outer chunk and
within each chunk by backend order, with no global re-sorting. -/
theorem fetch_typos_in_chunk_then_backend_order (config : BackendsConfig)
    (string_constants : List String) :
    fetch_typos_info config string_constants =
      flat ((chunks string_constants config.speller_chunk_size).map
        (fun c => flat (backendTypoOutputs config backends c))) := by
  rw [fetch_typos_info_eq_flatMap]
  exact congrArg flat
    (List.map_congr_left fun c _ => runBackends_fst_eq config backends c)

end CascadeClaims

section CascadeWitnesses

/-- Witness for C1: on the run of `cfgC1` over `["ok"]`, the vocabulary backend
resolves `"ok"`, which then does not reappear in the cache backend's input. -/
theorem fetch_cascade_fixed_order_no_reentry_w :
    (["ok"] ∈ chunks ["ok"] cfgC1.speller_chunk_size) ∧
      "ok" ∉ (backendInputs cfgC1 backends ["ok"]).get
        ⟨1, by rw [backendInputs_length]; decide⟩ :=
  ⟨by simp [cfgC1, chunks],
   (fetch_cascade_fixed_order_no_reentry cfgC1 ["ok"]).2 ["ok"]
     (by simp [cfgC1, chunks]) 0 1 (by decide) (by decide) "ok"
     (by unfold resolvedBy; decide)⟩

/-- Witness for C2: `"hello"` is in the vocabulary of `cfgC2`, whose cache
calls every word a typo and whose remote service flags every word, and still
`"hello"` is not among the reported originals. -/
theorem fetch_vocabulary_word_never_typo_w :
    in_vocabulary cfgC2 "hello" = true ∧
      "hello" ∉ (fetch_typos_info cfgC2 ["hello", "wrld"]).map
        TypoInfo.original :=
  ⟨by decide,
   fetch_vocabulary_word_never_typo cfgC2 ["hello", "wrld"] "hello" (by decide)⟩

/-- Witness for C3: `"teh"` has a cache `typo` entry under `cfgC3`, is reported
with the cached suggestions, and is never handed to the remote backend. -/
theorem fetch_cache_typo_no_remote_w :
    cfgC3.db "teh" = some ⟨CacheStatus.typo, ["the"]⟩ ∧
      (⟨"teh", ["the"]⟩ : TypoInfo) ∈ fetch_typos_info cfgC3 ["teh"] ∧
      "teh" ∉ remoteInputs cfgC3 ["teh"] :=
  ⟨by decide,
   (fetch_cache_typo_no_remote cfgC3 ["teh"] "teh" ["the"] (by decide)
     (by decide) (by decide) (by decide)).1,
   (fetch_cache_typo_no_remote cfgC3 ["teh"] "teh" ["the"] (by decide)
     (by decide) (by decide) (by decide)).2⟩

/-- Witness for C4: under `cfgC4` the remote service always fails; the word
`"aa"`, which reaches the remote backend, is absent from the findings. -/
theorem fetch_remote_failure_degraded_w :
    "aa" ∈ remoteInputs cfgC4 ["aa"] ∧
      "aa" ∉ (fetch_typos_info cfgC4 ["aa"]).map TypoInfo.original := by
  have hw : "aa" ∈ remoteInputs cfgC4 ["aa"] := by
    have h : chunks ["aa"] 1 = [["aa"]] := by simp [chunks]
    simp [remoteInputs, cfgC4, h, flat, cacheResidue, vocabResidue,
      process_with_db_with_cache, process_with_vocabulary, in_vocabulary,
      lowerStr]
  exact ⟨hw, fetch_remote_failure_degraded cfgC4 ["aa"] "aa" hw
    (fun sub _ => rfl)⟩

end CascadeWitnesses

section ExtractionClaims

/-- A failing file anywhere in the batch makes the outer loop abort. -/
theorem filesLoop_eq_none {fs : FileSystem}
    {extractors : List (String → List String)} {files_pathes : List String}
    {f : String} {acc : List String} (hf : f ∈ files_pathes)
    (hrun : runExtractors fs f extractors = none) :
    filesLoop fs extractors files_pathes acc = none := by
  induction files_pathes generalizing acc with
  | nil => cases hf
  | cons g rest ih =>
    rcases List.mem_cons.mp hf with rfl | hf
    · simp [filesLoop, hrun]
    · unfold filesLoop
      cases hr : runExtractors fs g extractors with
      | none => rfl
      | some strs => exact ih hf

/-- C9: if some file of the batch yields no content in either read mode, then
`extract_all_constants_from_files` returns the empty list, discarding every
string constant extracted from the other files rather than returning partial
results. -/
theorem extract_files_unreadable_batch_empty (fs : FileSystem)
    (files_pathes : List String) (extractors : List (String → List String))
    (f : String) (hf : f ∈ files_pathes)
    (hplain : fs.readPlain f = none) (hguess : fs.readGuess f = none)
    (hex : extractors ≠ []) :
    extract_all_constants_from_files fs files_pathes extractors = [] := by
  have hread : readFileContent fs f = none := by
    simp [readFileContent, get_content_from_file, hplain, hguess]
  have hrun : runExtractors fs f extractors = none := by
    cases extractors with
    | nil => exact absurd rfl hex
    | cons e rest => simp [runExtractors, hread]
  unfold extract_all_constants_from_files
  rw [filesLoop_eq_none hf hrun]

/-- Witness for C9: a one-file batch whose file is unreadable in both modes
yields the empty constant list. -/
theorem extract_files_unreadable_batch_empty_w :
    fsC9.readPlain "a.py" = none ∧
      extract_all_constants_from_files fsC9 ["a.py"] extractorsC9 = [] :=
  ⟨rfl,
   extract_files_unreadable_batch_empty fsC9 ["a.py"] extractorsC9 "a.py"
     (by simp) rfl rfl (by simp [extractorsC9])⟩

end ExtractionClaims

section ReorderLemmas

/-- `dropWhile` is idempotent. -/
theorem dropWhile_dropWhile (p : α → Bool) (l : List α) :
    (l.dropWhile p).dropWhile p = l.dropWhile p := by
  induction l with
  | nil => rfl
  | cons a l ih =>
    by_cases h : p a
    · simp [List.dropWhile_cons, h, ih]
    · simp [List.dropWhile_cons, h]

/-- `strip` only removes characters. -/
theorem mem_of_mem_strip {l : List Char} {x : Char} (hx : x ∈ strip l) :
    x ∈ l := by
  unfold strip at hx
  rw [List.mem_reverse] at hx
  have h1 : x ∈ (l.dropWhile isSpace).reverse :=
    List.dropWhile_subset _ hx
  rw [List.mem_reverse] at h1
  exact List.dropWhile_subset _ h1

/-- The first element surviving `dropWhile` fails the predicate. -/
theorem dropWhile_head_false {p : α → Bool} {l : List α} {b : α} {bs : List α}
    (h : l.dropWhile p = b :: bs) : p b = false := by
  induction l with
  | nil => simp [List.dropWhile] at h
  | cons a l ih =>
    cases ha : p a with
    | true =>
      simp only [List.dropWhile_cons, ha, if_true] at h
      exact ih h
    | false =>
      simp only [List.dropWhile_cons, ha] at h
      cases h
      simpa using ha

/-- `strip` is idempotent. -/
theorem strip_idem (l : List Char) : strip (strip l) = strip l := by
  unfold strip
  obtain ⟨t, ht⟩ :=
    List.dropWhile_suffix (l := (l.dropWhile isSpace).reverse) isSpace
  have hsub : ((l.dropWhile isSpace).reverse.dropWhile isSpace).reverse
      ++ t.reverse = l.dropWhile isSpace := by
    rw [← List.reverse_append, ht, List.reverse_reverse]
  have h1 : ((l.dropWhile isSpace).reverse.dropWhile isSpace).reverse.dropWhile
      isSpace = ((l.dropWhile isSpace).reverse.dropWhile isSpace).reverse := by
    cases hc : ((l.dropWhile isSpace).reverse.dropWhile isSpace).reverse with
    | nil => rfl
    | cons b bs =>
      rw [hc] at hsub
      have hd : l.dropWhile isSpace = b :: (bs ++ t.reverse) := by
        rw [← hsub]; rfl
      have hb : isSpace b = false := dropWhile_head_false hd
      simp [List.dropWhile_cons, hb]
  rw [h1, List.reverse_reverse,
    dropWhile_dropWhile isSpace (l.dropWhile isSpace).reverse]

/-- Appending a whitespace character does not change `strip`. -/
theorem strip_append_space {c : Char} (hc : isSpace c = true) (m : List Char) :
    strip (m ++ [c]) = strip m := by
  unfold strip
  rw [List.dropWhile_append]
  by_cases h : (m.dropWhile isSpace).isEmpty = true
  · have hm : m.dropWhile isSpace = [] := by simpa [List.isEmpty_iff] using h
    rw [if_pos h]
    simp [hm, List.dropWhile_cons, hc]
  · rw [if_neg h, List.reverse_append]
    simp [List.dropWhile_cons, hc]

/-- A `strip`-fixed core gets its terminating newline stripped back off. -/
theorem strip_append_newline {m : List Char} (h : strip m = m) :
    strip (m ++ ['\n']) = m := by
  rw [strip_append_space (by decide) m, h]

/-- `splitLines` never leaves a newline inside a line. -/
theorem splitLines_no_newline {cs : List Char} :
    ∀ l ∈ splitLines cs, '\n' ∉ l := by
  induction cs with
  | nil =>
    intro l hl
    simp only [splitLines, List.mem_singleton] at hl
    subst hl; simp
  | cons c cs ih =>
    intro l hl
    by_cases hc : c = '\n'
    · subst hc
      simp only [splitLines, if_true, List.mem_cons, eq_self_iff_true] at hl
      rcases hl with hl | hl
      · subst hl; simp
      · exact ih l hl
    · cases hsp : splitLines cs with
      | nil =>
        simp only [splitLines, if_neg hc, hsp, List.mem_singleton] at hl
        subst hl
        intro hmem
        rcases List.mem_cons.mp hmem with h | h
        · exact hc h.symm
        · simp at h
      | cons m ms =>
        simp only [splitLines, if_neg hc, hsp, List.mem_cons] at hl
        rcases hl with rfl | hl
        · have hm : '\n' ∉ m := ih m (by rw [hsp]; exact List.mem_cons_self _ _)
          intro hmem
          rcases List.mem_cons.mp hmem with h | h
          · exact hc h.symm
          · exact hm h
        · exact ih l (by rw [hsp]; exact List.mem_cons_of_mem _ hl)

/-- Splitting after a newline-free prefix and a newline. -/
theorem splitLines_append {m rest : List Char} (hm : '\n' ∉ m) :
    splitLines (m ++ '\n' :: rest) = m :: splitLines rest := by
  induction m with
  | nil => simp [splitLines]
  | cons c m ih =>
    have hc : ¬ c = '\n' := fun h => hm (h ▸ List.mem_cons_self _ _)
    have hm2 : '\n' ∉ m := fun h => hm (List.mem_cons_of_mem _ h)
    simp only [List.cons_append, splitLines, if_neg hc, List.append_eq, ih hm2]

/-- Splitting a concatenation of newline-terminated lines recovers the cores,
plus the empty trailing piece. -/
theorem splitLines_flat {ls : List (List Char)} (h : ∀ l ∈ ls, NLine l) :
    splitLines (flat ls) = ls.map List.dropLast ++ [[]] := by
  induction ls with
  | nil => simp [flat, splitLines]
  | cons l ls ih =>
    obtain ⟨m, hm, rfl⟩ := h l (List.mem_cons_self _ _)
    have hrest := ih (fun x hx => h x (List.mem_cons_of_mem _ hx))
    have hshape : flat ((m ++ ['\n']) :: ls) = m ++ '\n' :: flat ls := by
      simp [flat]
    rw [hshape, splitLines_append hm, hrest]
    simp

/-- `lineLe` is transitive. -/
theorem lineLe_trans {a b c : List Char} (h1 : lineLe a b = true)
    (h2 : lineLe b c = true) : lineLe a c = true := by
  induction a generalizing b c with
  | nil => rfl
  | cons x xs ih =>
    cases b with
    | nil => simp [lineLe] at h1
    | cons y ys =>
      cases c with
      | nil => simp [lineLe] at h2
      | cons z zs =>
        simp only [lineLe] at h1 h2 ⊢
        split_ifs at h1 h2 ⊢ <;>
          first
          | rfl
          | omega
          | exact ih h1 h2
          | simp at h1
          | simp at h2

/-- `lineLe` is total. -/
theorem lineLe_total : ∀ (a b : List Char), (lineLe a b || lineLe b a) = true := by
  intro a
  induction a with
  | nil => intro b; simp [lineLe]
  | cons x xs ih =>
    intro b
    cases b with
    | nil => simp [lineLe]
    | cons y ys =>
      simp only [lineLe]
      rcases Nat.lt_trichotomy x.toNat y.toNat with h | h | h
      · have h1 : ¬ y.toNat < x.toNat := by omega
        simp [h, h1]
      · have h0 : ¬ x.toNat < y.toNat := by omega
        have h1 : ¬ y.toNat < x.toNat := by omega
        simp only [if_neg h0, if_neg h1]
        exact ih ys
      · have h1 : ¬ x.toNat < y.toNat := by omega
        simp [h, h1]

/-- Sorting an already sorted line list changes nothing. -/
theorem sortLines_idem (X : List (List Char)) :
    sortLines (sortLines X) = sortLines X := by
  unfold sortLines
  exact List.mergeSort_of_sorted
    (@List.sorted_mergeSort _ lineLe
      (fun a b c h1 h2 => lineLe_trans h1 h2)
      (fun a b => lineLe_total a b) X)

/-- Every line `cleanLines` produces is good: non-empty, `strip`-fixed,
newline-free. -/
theorem cleanLines_good {content : List Char} :
    ∀ l ∈ cleanLines content, GoodLine l := by
  intro l hl
  unfold cleanLines at hl
  have h1 := List.mem_filter.mp hl
  obtain ⟨r, hr, rfl⟩ := List.mem_map.mp h1.1
  refine ⟨?_, strip_idem r, ?_⟩
  · intro hnil
    have h2 := h1.2
    rw [hnil] at h2
    simp at h2
  · intro hmem
    exact splitLines_no_newline r hr (mem_of_mem_strip hmem)

/-- Every line of a rendered section is newline-terminated with a newline-free
core. -/
theorem renderSection_NLine {sec : List (List Char)}
    (h : ∀ l ∈ sec, '\n' ∉ l) : ∀ x ∈ renderSection sec, NLine x := by
  intro x hx
  unfold renderSection at hx
  rcases List.mem_append.mp hx with hx | hx
  · obtain ⟨l, hl, rfl⟩ := List.mem_map.mp hx
    exact ⟨l, h l (List.mem_of_mem_filter hl), rfl⟩
  · rw [sortLines, List.mem_mergeSort] at hx
    obtain ⟨l, hl, rfl⟩ := List.mem_map.mp hx
    exact ⟨l, h l (List.mem_of_mem_filter hl), rfl⟩

/-- Every output line of `renderSections` is newline-terminated with a
newline-free core. -/
theorem renderSections_NLine {S : List (List (List Char))}
    (h : ∀ sec ∈ S, ∀ l ∈ sec, '\n' ∉ l) :
    ∀ x ∈ renderSections S, NLine x := by
  induction S with
  | nil => simp [renderSections]
  | cons sec rest ih =>
    cases rest with
    | nil =>
      exact fun x hx =>
        renderSection_NLine (h sec (List.mem_cons_self _ _)) x hx
    | cons sec2 rest2 =>
      intro x hx
      simp only [renderSections] at hx
      rcases List.mem_append.mp hx with hx | hx
      · exact renderSection_NLine (h sec (List.mem_cons_self _ _)) x hx
      · rcases List.mem_cons.mp hx with rfl | hx
        · exact ⟨[], by simp, rfl⟩
        · exact ih (fun s hs => h s (List.mem_cons_of_mem _ hs)) x hx

/-- Reading one rendered section back (strip the newline off every line, drop
blank lines) yields its `coreRender`. -/
theorem clean_renderSection {sec : List (List Char)}
    (h : ∀ l ∈ sec, GoodLine l) :
    ((renderSection sec).map (fun l => strip l.dropLast)).filter
      (fun l => !l.isEmpty) = coreRender sec := by
  unfold renderSection coreRender
  rw [List.map_append, List.filter_append]
  congr 1
  · rw [List.map_map]
    have h1 : ∀ l ∈ sec.filter startsWithHash,
        ((fun l => strip (List.dropLast l)) ∘ fun l => l ++ ['\n']) l = id l := by
      intro l hl
      have hg := h l (List.mem_of_mem_filter hl)
      show strip (l ++ ['\n']).dropLast = l
      rw [List.dropLast_concat, hg.2.1]
    rw [List.map_congr_left h1, List.map_id]
    rw [List.filter_eq_self]
    intro x hx
    have hg := h x (List.mem_of_mem_filter hx)
    simp [List.isEmpty_iff, hg.1]
  · have h2 : ∀ x ∈ sortLines ((sec.filter (fun l => !startsWithHash l)).map
        (fun l => l ++ ['\n'])),
        (fun l => strip (List.dropLast l)) x = List.dropLast x := by
      intro x hx
      rw [sortLines, List.mem_mergeSort] at hx
      obtain ⟨e, he, rfl⟩ := List.mem_map.mp hx
      have hg := h e (List.mem_of_mem_filter he)
      show strip (e ++ ['\n']).dropLast = (e ++ ['\n']).dropLast
      rw [List.dropLast_concat, hg.2.1]
    rw [List.map_congr_left h2]
    rw [List.filter_eq_self]
    intro x hx
    obtain ⟨y, hy, rfl⟩ := List.mem_map.mp hx
    rw [sortLines, List.mem_mergeSort] at hy
    obtain ⟨e, he, rfl⟩ := List.mem_map.mp hy
    have hg := h e (List.mem_of_mem_filter he)
    rw [List.dropLast_concat]
    simp [List.isEmpty_iff, hg.1]

/-- Reading the whole rendered output back, per section. -/
theorem clean_renderSections {S : List (List (List Char))}
    (h : ∀ sec ∈ S, ∀ l ∈ sec, GoodLine l) :
    ((renderSections S).map (fun l => strip l.dropLast)).filter
      (fun l => !l.isEmpty) = flat (S.map coreRender) := by
  induction S with
  | nil => simp [renderSections, flat]
  | cons sec rest ih =>
    cases rest with
    | nil =>
      simp only [renderSections, List.map_cons, List.map_nil, flat,
        List.flatten_cons, List.flatten_nil, List.append_nil]
      exact clean_renderSection (h sec (List.mem_cons_self _ _))
    | cons sec2 rest2 =>
      simp only [renderSections]
      rw [List.map_append, List.filter_append,
        clean_renderSection (h sec (List.mem_cons_self _ _))]
      simp only [List.map_cons]
      have hsep : strip (List.dropLast ['\n']) = [] := by decide
      rw [hsep]
      have hstep : List.filter (fun l => !l.isEmpty)
          (([] : List Char) :: (renderSections (sec2 :: rest2)).map
            (fun l => strip l.dropLast))
          = ((renderSections (sec2 :: rest2)).map
            (fun l => strip l.dropLast)).filter (fun l => !l.isEmpty) := by
        simp [List.filter_cons]
      rw [hstep, ih (fun s hs => h s (List.mem_cons_of_mem _ hs))]
      simp [flat]

/-- Re-reading the output of `reorder_vocabulary`: the cleaned lines of the
rendered sections are exactly the concatenated `coreRender`s. -/
theorem cleanLines_flat_renderSections {S : List (List (List Char))}
    (h : ∀ sec ∈ S, ∀ l ∈ sec, GoodLine l) :
    cleanLines (flat (renderSections S)) = flat (S.map coreRender) := by
  unfold cleanLines
  rw [splitLines_flat (renderSections_NLine (fun sec hs l hl => (h sec hs l hl).2.2))]
  rw [List.map_append, List.filter_append, List.map_map]
  have htail : (((([] : List Char) :: []).map strip).filter
      (fun l => !l.isEmpty)) = [] := by decide
  rw [htail, List.append_nil]
  have hcomp : (renderSections S).map (strip ∘ List.dropLast)
      = (renderSections S).map (fun l => strip l.dropLast) := by
    simp [Function.comp]
  rw [hcomp]
  exact clean_renderSections h

/-- Starting the sectioning loop on a line is starting it with that line
current. -/
theorem buildSections_nil_cons (l : List Char) (rest : List (List Char)) :
    buildSections [] (l :: rest) = buildSections [l] rest := by
  simp [buildSections]

/-- A run of non-header lines only extends the current section. -/
theorem buildSections_entries (p : List (List Char)) :
    ∀ cur, cur ≠ [] → (∀ l ∈ p, startsWithHash l = false) →
    buildSections cur p = [cur ++ p] := by
  induction p with
  | nil =>
    intro cur hcur _
    simp [buildSections, List.isEmpty_iff, hcur]
  | cons l p ih =>
    intro cur hcur hp
    have hl : startsWithHash l = false := hp l (List.mem_cons_self _ _)
    have hstep : buildSections cur (l :: p) = buildSections (cur ++ [l]) p := by
      simp [buildSections, hl]
    rw [hstep, ih (cur ++ [l]) (by simp) (fun x hx => hp x (List.mem_cons_of_mem _ hx))]
    simp

/-- A run of non-header lines followed by a header closes the current
section. -/
theorem buildSections_entries_header (p : List (List Char)) :
    ∀ cur h Z, cur ≠ [] → (∀ l ∈ p, startsWithHash l = false) →
    startsWithHash h = true →
    buildSections cur (p ++ h :: Z) = (cur ++ p) :: buildSections [h] Z := by
  induction p with
  | nil =>
    intro cur h Z hcur hp hh
    have hcond : (startsWithHash h && !cur.isEmpty) = true := by
      simp [hh, List.isEmpty_iff, hcur]
    simp only [List.nil_append, buildSections, hcond, if_true]
    simp
  | cons l p ih =>
    intro cur h Z hcur hp hh
    have hl : startsWithHash l = false := hp l (List.mem_cons_self _ _)
    have hstep : buildSections cur (l :: (p ++ h :: Z))
        = buildSections (cur ++ [l]) (p ++ h :: Z) := by
      simp [buildSections, hl]
    rw [List.cons_append, hstep,
      ih (cur ++ [l]) h Z (by simp) (fun x hx => hp x (List.mem_cons_of_mem _ hx)) hh]
    simp

/-- Re-sectioning a concatenation of well-formed sections recovers them: each
section is non-empty, has headers only in front position, and each section
after the first starts with a header. -/
theorem buildSections_flat (T : List (List (List Char)))
    (h1 : ∀ sec ∈ T, sec ≠ [])
    (h2 : ∀ sec ∈ T, ∀ l ∈ sec.tail, startsWithHash l = false)
    (h3 : ∀ sec ∈ T.tail, groupStartsWithHeader sec = true) :
    buildSections [] (flat T) = T := by
  induction T with
  | nil => simp [flat, buildSections]
  | cons sec rest ih =>
    obtain ⟨s0, st, rfl⟩ : ∃ s0 st, sec = s0 :: st := by
      cases sec with
      | nil => exact absurd rfl (h1 _ (List.mem_cons_self _ _))
      | cons a b => exact ⟨a, b, rfl⟩
    have hst : ∀ l ∈ st, startsWithHash l = false := by
      have h := h2 (s0 :: st) (List.mem_cons_self _ _)
      simpa using h
    have hflat : flat ((s0 :: st) :: rest) = s0 :: (st ++ flat rest) := by
      simp [flat]
    rw [hflat, buildSections_nil_cons]
    cases hrest : rest with
    | nil =>
      simp only [flat, List.flatten_nil, List.append_nil]
      rw [buildSections_entries st [s0] (by simp) hst]
      simp
    | cons r rest2 =>
      obtain ⟨h0, rt, rfl⟩ : ∃ h0 rt, r = h0 :: rt := by
        cases r with
        | nil =>
          exact absurd rfl (h1 _ (by
            rw [hrest]
            exact List.mem_cons_of_mem _ (List.mem_cons_self _ _)))
        | cons a b => exact ⟨a, b, rfl⟩
      have hh0 : startsWithHash h0 = true := by
        have h := h3 (h0 :: rt) (by rw [hrest]; exact List.mem_cons_self _ _)
        simpa [groupStartsWithHeader] using h
      have hflat2 : flat ((h0 :: rt) :: rest2) = h0 :: (rt ++ flat rest2) := by
        simp [flat]
      rw [hflat2]
      rw [show st ++ h0 :: (rt ++ flat rest2) = st ++ (h0 :: (rt ++ flat rest2))
        from rfl]
      rw [buildSections_entries_header st [s0] h0 (rt ++ flat rest2) (by simp)
        hst hh0]
      have hih := ih (fun s hs => h1 s (List.mem_cons_of_mem _ hs))
        (fun s hs => h2 s (List.mem_cons_of_mem _ hs))
        (fun s hs => h3 s (List.mem_of_mem_tail hs))
      rw [hrest] at hih
      rw [hflat2, buildSections_nil_cons] at hih
      rw [hih]
      simp

/-- No group of `splitOnHeaders` is empty. -/
theorem splitOnHeaders_ne_nil {lines : List (List Char)} :
    ∀ sec ∈ splitOnHeaders lines, sec ≠ [] := by
  induction lines with
  | nil => simp [splitOnHeaders]
  | cons l rest ih =>
    intro sec hsec
    cases hsp : splitOnHeaders rest with
    | nil =>
      simp only [splitOnHeaders, hsp, List.mem_singleton] at hsec
      subst hsec
      simp
    | cons g gs =>
      simp only [splitOnHeaders, hsp] at hsec
      by_cases hg : groupStartsWithHeader g = true
      · rw [if_pos hg] at hsec
        rcases List.mem_cons.mp hsec with hsec | hsec
        · subst hsec; simp
        · exact ih sec (by rw [hsp]; exact hsec)
      · rw [if_neg hg] at hsec
        rcases List.mem_cons.mp hsec with hsec | hsec
        · subst hsec; simp
        · exact ih sec (by rw [hsp]; exact List.mem_cons_of_mem _ hsec)

/-- Every line of every group of `splitOnHeaders` is an input line. -/
theorem splitOnHeaders_mem {lines : List (List Char)} :
    ∀ sec ∈ splitOnHeaders lines, ∀ l ∈ sec, l ∈ lines := by
  induction lines with
  | nil => simp [splitOnHeaders]
  | cons x rest ih =>
    intro sec hsec l hl
    cases hsp : splitOnHeaders rest with
    | nil =>
      simp only [splitOnHeaders, hsp, List.mem_singleton] at hsec
      subst hsec
      simp only [List.mem_singleton] at hl
      subst hl
      exact List.mem_cons_self _ _
    | cons g gs =>
      simp only [splitOnHeaders, hsp] at hsec
      by_cases hg : groupStartsWithHeader g = true
      · rw [if_pos hg] at hsec
        rcases List.mem_cons.mp hsec with hsec | hsec
        · subst hsec
          simp only [List.mem_singleton] at hl
          subst hl
          exact List.mem_cons_self _ _
        · exact List.mem_cons_of_mem _ (ih sec (by rw [hsp]; exact hsec) l hl)
      · rw [if_neg hg] at hsec
        rcases List.mem_cons.mp hsec with hsec | hsec
        · subst hsec
          rcases List.mem_cons.mp hl with hl | hl
          · subst hl; exact List.mem_cons_self _ _
          · exact List.mem_cons_of_mem _
              (ih g (by rw [hsp]; exact List.mem_cons_self _ _) l hl)
        · exact List.mem_cons_of_mem _
            (ih sec (by rw [hsp]; exact List.mem_cons_of_mem _ hsec) l hl)

/-- Inside every group of `splitOnHeaders`, only the front line may be a
header. -/
theorem splitOnHeaders_tail_no_header {lines : List (List Char)} :
    ∀ sec ∈ splitOnHeaders lines, ∀ l ∈ sec.tail, startsWithHash l = false := by
  induction lines with
  | nil => simp [splitOnHeaders]
  | cons x rest ih =>
    intro sec hsec l hl
    cases hsp : splitOnHeaders rest with
    | nil =>
      simp only [splitOnHeaders, hsp, List.mem_singleton] at hsec
      subst hsec
      simp at hl
    | cons g gs =>
      simp only [splitOnHeaders, hsp] at hsec
      by_cases hg : groupStartsWithHeader g = true
      · rw [if_pos hg] at hsec
        rcases List.mem_cons.mp hsec with hsec | hsec
        · subst hsec; simp at hl
        · exact ih sec (by rw [hsp]; exact hsec) l hl
      · rw [if_neg hg] at hsec
        rcases List.mem_cons.mp hsec with hsec | hsec
        · subst hsec
          -- sec = x :: g with g headerless-headed and headerless-tailed
          simp only [List.tail_cons] at hl
          cases hgl : g with
          | nil => rw [hgl] at hl; simp at hl
          | cons g0 gt =>
            rw [hgl] at hl
            rcases List.mem_cons.mp hl with hl | hl
            · subst hl
              have := hg
              rw [hgl] at this
              simpa [groupStartsWithHeader] using this
            · exact ih g (by rw [hsp]; exact List.mem_cons_self _ _) l
                (by rw [hgl]; exact hl)
        · exact ih sec (by rw [hsp]; exact List.mem_cons_of_mem _ hsec) l hl

/-- Every group of `splitOnHeaders` after the first starts with a header. -/
theorem splitOnHeaders_tail_hdr {lines : List (List Char)} :
    ∀ sec ∈ (splitOnHeaders lines).tail, groupStartsWithHeader sec = true := by
  induction lines with
  | nil => simp [splitOnHeaders]
  | cons x rest ih =>
    intro sec hsec
    cases hsp : splitOnHeaders rest with
    | nil =>
      simp only [splitOnHeaders, hsp, List.tail_cons] at hsec
      simp at hsec
    | cons g gs =>
      simp only [splitOnHeaders, hsp] at hsec
      by_cases hg : groupStartsWithHeader g = true
      · rw [if_pos hg] at hsec
        simp only [List.tail_cons] at hsec
        rcases List.mem_cons.mp hsec with hsec | hsec
        · subst hsec; exact hg
        · exact ih sec (by rw [hsp]; exact hsec)
      · rw [if_neg hg] at hsec
        simp only [List.tail_cons] at hsec
        exact ih sec (by rw [hsp]; exact hsec)

/-- The sectioning loop with a pending current section, in terms of
`splitOnHeaders` of the remaining lines. -/
theorem buildSections_cur_eq (rest : List (List Char)) :
    ∀ cur, cur ≠ [] →
    buildSections cur rest = consumeCur cur (splitOnHeaders rest) := by
  induction rest with
  | nil =>
    intro cur hcur
    simp [buildSections, splitOnHeaders, consumeCur, List.isEmpty_iff, hcur]
  | cons l rest ih =>
    intro cur hcur
    by_cases hl : startsWithHash l = true
    · have hbs : buildSections cur (l :: rest) = cur :: buildSections [l] rest := by
        simp [buildSections, hl, List.isEmpty_iff, hcur]
      rw [hbs, ih [l] (by simp)]
      cases hsp : splitOnHeaders rest with
      | nil =>
        have hb : splitOnHeaders (l :: rest) = [[l]] := by
          simp only [splitOnHeaders, hsp]
        rw [hb]
        simp only [consumeCur]
        rw [if_pos (show groupStartsWithHeader [l] = true from by
          simpa [groupStartsWithHeader] using hl)]
      | cons g gs =>
        by_cases hg : groupStartsWithHeader g = true
        · have hb : splitOnHeaders (l :: rest) = [l] :: g :: gs := by
            simp only [splitOnHeaders, hsp, if_pos hg]
          rw [hb]
          simp only [consumeCur]
          rw [if_pos hg, if_pos (show groupStartsWithHeader [l] = true from by
            simpa [groupStartsWithHeader] using hl)]
        · have hb : splitOnHeaders (l :: rest) = (l :: g) :: gs := by
            simp only [splitOnHeaders, hsp, if_neg hg]
          rw [hb]
          simp only [consumeCur]
          rw [if_neg hg, if_pos (show groupStartsWithHeader (l :: g) = true from by
            simpa [groupStartsWithHeader] using hl)]
          simp
    · have hl' : startsWithHash l = false := by
        cases h : startsWithHash l
        · rfl
        · exact absurd h hl
      have hbs : buildSections cur (l :: rest) = buildSections (cur ++ [l]) rest := by
        simp [buildSections, hl']
      rw [hbs, ih (cur ++ [l]) (by simp)]
      cases hsp : splitOnHeaders rest with
      | nil =>
        have hb : splitOnHeaders (l :: rest) = [[l]] := by
          simp only [splitOnHeaders, hsp]
        rw [hb]
        simp only [consumeCur]
        rw [if_neg (show ¬ groupStartsWithHeader [l] = true from by
          simp [groupStartsWithHeader, hl'])]
      | cons g gs =>
        by_cases hg : groupStartsWithHeader g = true
        · have hb : splitOnHeaders (l :: rest) = [l] :: g :: gs := by
            simp only [splitOnHeaders, hsp, if_pos hg]
          rw [hb]
          simp only [consumeCur]
          rw [if_pos hg, if_neg (show ¬ groupStartsWithHeader [l] = true from by
            simp [groupStartsWithHeader, hl'])]
        · have hb : splitOnHeaders (l :: rest) = (l :: g) :: gs := by
            simp only [splitOnHeaders, hsp, if_neg hg]
          rw [hb]
          simp only [consumeCur]
          rw [if_neg hg, if_neg (show ¬ groupStartsWithHeader (l :: g) = true from by
            simp [groupStartsWithHeader, hl'])]
          simp

/-- The source's sectioning loop computes exactly the spec's
split-on-header-lines sectioning. -/
theorem buildSections_eq_splitOnHeaders (lines : List (List Char)) :
    buildSections [] lines = splitOnHeaders lines := by
  cases lines with
  | nil => rfl
  | cons l rest =>
    rw [buildSections_nil_cons, buildSections_cur_eq rest [l] (by simp)]
    cases hsp : splitOnHeaders rest with
    | nil => simp [consumeCur, splitOnHeaders, hsp]
    | cons g gs =>
      by_cases hg : groupStartsWithHeader g = true
      · simp [consumeCur, splitOnHeaders, hsp, hg, groupStartsWithHeader]
      · simp [consumeCur, splitOnHeaders, hsp, hg, groupStartsWithHeader]

/-- `coreRender` only rearranges a section's own lines. -/
theorem coreRender_subset {sec : List (List Char)} :
    ∀ x ∈ coreRender sec, x ∈ sec := by
  intro x hx
  unfold coreRender at hx
  rcases List.mem_append.mp hx with hx | hx
  · exact List.mem_of_mem_filter hx
  · obtain ⟨y, hy, rfl⟩ := List.mem_map.mp hx
    rw [sortLines, List.mem_mergeSort] at hy
    obtain ⟨e, he, rfl⟩ := List.mem_map.mp hy
    rw [List.dropLast_concat]
    exact List.mem_of_mem_filter he

/-- `coreRender` preserves the number of lines. -/
theorem coreRender_length (sec : List (List Char)) :
    (coreRender sec).length = sec.length := by
  unfold coreRender
  rw [List.length_append, List.length_map, sortLines, List.length_mergeSort,
    List.length_map]
  exact (List.length_eq_length_filter_add startsWithHash).symm

/-- `coreRender` keeps a non-empty section non-empty. -/
theorem coreRender_ne_nil {sec : List (List Char)} (h : sec ≠ []) :
    coreRender sec ≠ [] := by
  intro hc
  have hlen := coreRender_length sec
  rw [hc] at hlen
  cases sec with
  | nil => exact h rfl
  | cons a b => simp at hlen

/-- The entry part of `coreRender` carries no header lines. -/
theorem coreRender_entries_no_hash {sec : List (List Char)} :
    ∀ x ∈ (sortLines ((sec.filter (fun l => !startsWithHash l)).map
      (fun l => l ++ ['\n']))).map List.dropLast, startsWithHash x = false := by
  intro x hx
  obtain ⟨y, hy, rfl⟩ := List.mem_map.mp hx
  rw [sortLines, List.mem_mergeSort] at hy
  obtain ⟨e, he, rfl⟩ := List.mem_map.mp hy
  rw [List.dropLast_concat]
  have h := (List.mem_filter.mp he).2
  simpa using h

/-- The header lines of `coreRender` are those of the section. -/
theorem coreRender_filter_hash {sec : List (List Char)} :
    (coreRender sec).filter startsWithHash = sec.filter startsWithHash := by
  unfold coreRender
  rw [List.filter_append]
  have h1 : (sec.filter startsWithHash).filter startsWithHash
      = sec.filter startsWithHash := by
    rw [List.filter_eq_self]
    intro a ha
    exact (List.mem_filter.mp ha).2
  have h2 : ((sortLines ((sec.filter (fun l => !startsWithHash l)).map
      (fun l => l ++ ['\n']))).map List.dropLast).filter startsWithHash = [] := by
    rw [List.filter_eq_nil_iff]
    intro a ha
    simp [coreRender_entries_no_hash a ha]
  rw [h1, h2, List.append_nil]

/-- The non-header lines of `coreRender` are its sorted entry part. -/
theorem coreRender_filter_not_hash {sec : List (List Char)} :
    (coreRender sec).filter (fun l => !startsWithHash l)
      = (sortLines ((sec.filter (fun l => !startsWithHash l)).map
        (fun l => l ++ ['\n']))).map List.dropLast := by
  unfold coreRender
  rw [List.filter_append]
  have h1 : (sec.filter startsWithHash).filter (fun l => !startsWithHash l)
      = [] := by
    rw [List.filter_eq_nil_iff]
    intro a ha
    have h := (List.mem_filter.mp ha).2
    simp [h]
  have h2 : ((sortLines ((sec.filter (fun l => !startsWithHash l)).map
      (fun l => l ++ ['\n']))).map List.dropLast).filter
        (fun l => !startsWithHash l)
      = (sortLines ((sec.filter (fun l => !startsWithHash l)).map
        (fun l => l ++ ['\n']))).map List.dropLast := by
    rw [List.filter_eq_self]
    intro x hx
    simp [coreRender_entries_no_hash x hx]
  rw [h1, h2, List.nil_append]

/-- `coreRender` keeps a header-led section header-led. -/
theorem coreRender_starts_hdr {sec : List (List Char)}
    (htail : ∀ l ∈ sec.tail, startsWithHash l = false)
    (hhdr : groupStartsWithHeader sec = true) :
    groupStartsWithHeader (coreRender sec) = true := by
  cases sec with
  | nil => simp [groupStartsWithHeader] at hhdr
  | cons s0 st =>
    have hs0 : startsWithHash s0 = true := by
      simpa [groupStartsWithHeader] using hhdr
    have hstf : st.filter startsWithHash = [] := by
      rw [List.filter_eq_nil_iff]
      intro a ha
      simp [htail a (by simpa using ha)]
    have hfil : (s0 :: st).filter startsWithHash = [s0] := by
      rw [List.filter_cons_of_pos hs0, hstf]
    unfold coreRender
    rw [hfil]
    simp [groupStartsWithHeader, hs0]

/-- `coreRender` keeps headers out of the section tail. -/
theorem coreRender_tail_no_header {sec : List (List Char)}
    (htail : ∀ l ∈ sec.tail, startsWithHash l = false) :
    ∀ l ∈ (coreRender sec).tail, startsWithHash l = false := by
  intro l hl
  cases sec with
  | nil =>
    rw [show coreRender [] = [] from by simp [coreRender, sortLines]] at hl
    simp at hl
  | cons s0 st =>
    cases hs0 : startsWithHash s0 with
    | true =>
      have hstf : st.filter startsWithHash = [] := by
        rw [List.filter_eq_nil_iff]
        intro a ha
        simp [htail a (by simpa using ha)]
      have hcore : coreRender (s0 :: st)
          = s0 :: (sortLines (((s0 :: st).filter
            (fun l => !startsWithHash l)).map (fun l => l ++ ['\n']))).map
              List.dropLast := by
        unfold coreRender
        rw [List.filter_cons_of_pos hs0, hstf]
        simp
      rw [hcore] at hl
      simp only [List.tail_cons] at hl
      exact coreRender_entries_no_hash l hl
    | false =>
      have hfil : (s0 :: st).filter startsWithHash = [] := by
        rw [List.filter_eq_nil_iff]
        intro a ha
        rcases List.mem_cons.mp ha with rfl | ha
        · simp [hs0]
        · simp [htail a (by simpa using ha)]
      have hcore : coreRender (s0 :: st)
          = (sortLines (((s0 :: st).filter
            (fun l => !startsWithHash l)).map (fun l => l ++ ['\n']))).map
              List.dropLast := by
        unfold coreRender
        rw [hfil]
        simp
      rw [hcore] at hl
      exact coreRender_entries_no_hash l (List.mem_of_mem_tail hl)

/-- Rendering a re-read section gives the same output lines again: the headers
coincide and sorting the already sorted entries changes nothing. -/
theorem renderSection_coreRender (sec : List (List Char)) :
    renderSection (coreRender sec) = renderSection sec := by
  unfold renderSection
  rw [coreRender_filter_hash, coreRender_filter_not_hash]
  congr 1
  have hrt : ((sortLines ((sec.filter (fun l => !startsWithHash l)).map
      (fun l => l ++ ['\n']))).map List.dropLast).map (fun l => l ++ ['\n'])
      = sortLines ((sec.filter (fun l => !startsWithHash l)).map
        (fun l => l ++ ['\n'])) := by
    rw [List.map_map]
    have h : ∀ y ∈ sortLines ((sec.filter (fun l => !startsWithHash l)).map
        (fun l => l ++ ['\n'])),
        (((fun l => l ++ ['\n']) ∘ List.dropLast) y) = id y := by
      intro y hy
      rw [sortLines, List.mem_mergeSort] at hy
      obtain ⟨e, he, rfl⟩ := List.mem_map.mp hy
      show (e ++ ['\n']).dropLast ++ ['\n'] = e ++ ['\n']
      rw [List.dropLast_concat]
    rw [List.map_congr_left h, List.map_id]
  rw [hrt, sortLines_idem]

/-- Rendering the re-read sections gives the same output lines again. -/
theorem renderSections_map_coreRender (S : List (List (List Char))) :
    renderSections (S.map coreRender) = renderSections S := by
  induction S with
  | nil => rfl
  | cons sec rest ih =>
    cases rest with
    | nil =>
      simp only [List.map_cons, List.map_nil, renderSections]
      exact renderSection_coreRender sec
    | cons sec2 rest2 =>
      simp only [List.map_cons, renderSections] at ih ⊢
      rw [renderSection_coreRender sec, ih]

/-- The rendered section lines, flattened, equal the section byte blocks joined
by single blank lines. -/
theorem flat_renderSections_intersperse (S : List (List (List Char))) :
    flat (renderSections S)
      = flat ((S.map (fun sec => flat (renderSection sec))).intersperse
        ['\n']) := by
  induction S with
  | nil => rfl
  | cons sec rest ih =>
    cases rest with
    | nil => simp [renderSections, flat]
    | cons sec2 rest2 =>
      have lhs : flat (renderSections (sec :: sec2 :: rest2))
          = flat (renderSection sec)
            ++ '\n' :: flat (renderSections (sec2 :: rest2)) := by
        simp [renderSections, flat]
      have rhs : flat (((sec :: sec2 :: rest2).map
            (fun s => flat (renderSection s))).intersperse ['\n'])
          = flat (renderSection sec) ++ '\n' :: flat (((sec2 :: rest2).map
            (fun s => flat (renderSection s))).intersperse ['\n']) := by
        simp [flat]
      rw [lhs, rhs, ih]

/-- Unfolding `splitOnBlankLines` at a non-blank line. -/
theorem splitOnBlankLines_cons_nonblank {l : List Char}
    {rest : List (List Char)} (hl : l.isEmpty = false) :
    splitOnBlankLines (l :: rest)
      = match splitOnBlankLines rest with
        | [] => [[l]]
        | g :: gs => (l :: g) :: gs := by
  simp [splitOnBlankLines, hl]

/-- Unfolding `splitOnBlankLines` at a blank line. -/
theorem splitOnBlankLines_cons_blank {l : List Char}
    {rest : List (List Char)} (hl : l.isEmpty = true) :
    splitOnBlankLines (l :: rest) = [] :: splitOnBlankLines rest := by
  simp [splitOnBlankLines, hl]

/-- A non-blank run closed by a blank line is one group. -/
theorem splitOnBlankLines_run {A X : List (List Char)}
    (hA : ∀ l ∈ A, l.isEmpty = false) (hne : A ≠ []) :
    splitOnBlankLines (A ++ [] :: X) = A :: splitOnBlankLines X := by
  induction A with
  | nil => exact absurd rfl hne
  | cons a A ih =>
    have ha : a.isEmpty = false := hA a (List.mem_cons_self _ _)
    rw [List.cons_append, splitOnBlankLines_cons_nonblank ha]
    cases A with
    | nil =>
      rw [List.nil_append, splitOnBlankLines_cons_blank
        (show ([] : List Char).isEmpty = true from rfl)]
    | cons b A2 =>
      rw [ih (fun x hx => hA x (List.mem_cons_of_mem _ hx)) (by simp)]

/-- A non-blank run closed by the file's final empty piece is one group. -/
theorem splitOnBlankLines_run_end {A : List (List Char)}
    (hA : ∀ l ∈ A, l.isEmpty = false) (hne : A ≠ []) :
    splitOnBlankLines (A ++ [[]]) = [A] := by
  induction A with
  | nil => exact absurd rfl hne
  | cons a A ih =>
    have ha : a.isEmpty = false := hA a (List.mem_cons_self _ _)
    rw [List.cons_append, splitOnBlankLines_cons_nonblank ha]
    cases A with
    | nil =>
      rw [List.nil_append, splitOnBlankLines_cons_blank
        (show ([] : List Char).isEmpty = true from rfl)]
      rfl
    | cons b A2 =>
      rw [ih (fun x hx => hA x (List.mem_cons_of_mem _ hx)) (by simp)]

/-- Dropping the terminating newlines of one rendered section yields its
`coreRender`. -/
theorem map_dropLast_renderSection (sec : List (List Char)) :
    (renderSection sec).map List.dropLast = coreRender sec := by
  unfold renderSection coreRender
  rw [List.map_append, List.map_map]
  congr 1
  have h : ∀ l ∈ sec.filter startsWithHash,
      (List.dropLast ∘ fun l => l ++ ['\n']) l = id l := by
    intro l hl
    show (l ++ ['\n']).dropLast = l
    exact List.dropLast_concat
  rw [List.map_congr_left h, List.map_id]

/-- Grouping the un-terminated output lines of `renderSections` at blank lines
recovers one group per section, namely its `coreRender`. -/
theorem sobl_renderSections {S : List (List (List Char))}
    (hA : ∀ sec ∈ S, ∀ x ∈ coreRender sec, x.isEmpty = false)
    (hne : ∀ sec ∈ S, coreRender sec ≠ []) :
    (splitOnBlankLines ((renderSections S).map List.dropLast ++ [[]])).filter
      (fun g => !g.isEmpty) = S.map coreRender := by
  induction S with
  | nil => simp [renderSections, splitOnBlankLines]
  | cons sec rest ih =>
    have hne0 : coreRender sec ≠ [] := hne sec (List.mem_cons_self _ _)
    have hke : (!(coreRender sec).isEmpty) = true := by
      cases hxe : (coreRender sec).isEmpty
      · rfl
      · exact absurd (List.isEmpty_iff.mp hxe) hne0
    cases rest with
    | nil =>
      have hmap : (renderSections [sec]).map List.dropLast = coreRender sec :=
        map_dropLast_renderSection sec
      rw [hmap, splitOnBlankLines_run_end (hA sec (List.mem_cons_self _ _))
        hne0]
      simp only [List.filter_cons, hke, if_true, List.filter_nil, List.map_cons,
        List.map_nil]
    | cons sec2 rest2 =>
      have hmap : (renderSections (sec :: sec2 :: rest2)).map List.dropLast
          = coreRender sec
            ++ [] :: (renderSections (sec2 :: rest2)).map List.dropLast := by
        show (renderSection sec
          ++ ['\n'] :: renderSections (sec2 :: rest2)).map List.dropLast = _
        rw [List.map_append, map_dropLast_renderSection, List.map_cons]
        rfl
      rw [hmap]
      rw [show (coreRender sec
          ++ [] :: (renderSections (sec2 :: rest2)).map List.dropLast) ++ [[]]
          = coreRender sec
            ++ [] :: ((renderSections (sec2 :: rest2)).map List.dropLast
              ++ [[]]) from by simp]
      rw [splitOnBlankLines_run (hA sec (List.mem_cons_self _ _)) hne0]
      simp only [List.filter_cons, hke, if_true]
      rw [ih (fun s hs => hA s (List.mem_cons_of_mem _ hs))
        (fun s hs => hne s (List.mem_cons_of_mem _ hs))]
      simp

/-- The blank-line-delimited sections of `reorder_vocabulary`'s output are the
`coreRender`s of the sections it was built from. -/
theorem blankSections_flat_renderSections {S : List (List (List Char))}
    (hgood : ∀ sec ∈ S, ∀ l ∈ sec, GoodLine l)
    (hne : ∀ sec ∈ S, sec ≠ []) :
    blankSections (flat (renderSections S)) = S.map coreRender := by
  unfold blankSections
  rw [splitLines_flat
    (renderSections_NLine (fun sec hs l hl => (hgood sec hs l hl).2.2))]
  refine sobl_renderSections (fun sec hs x hx => ?_)
    (fun sec hs => coreRender_ne_nil (hne sec hs))
  have hx' : x ≠ [] := (hgood sec hs x (coreRender_subset x hx)).1
  cases hxe : x.isEmpty
  · rfl
  · exact absurd (List.isEmpty_iff.mp hxe) hx'

/-- The format-level parse is substantive: a file whose entry precedes its
header yields a blank-line section carrying the header in its tail, so the
header-placement invariant can fail for other file contents. -/
theorem blankSections_can_misplace_headers :
    ∃ sec ∈ blankSections ['x', '\n', '#', 'A', '\n'],
      ∃ l ∈ sec.tail, startsWithHash l = true :=
  ⟨[['x'], ['#', 'A']], by decide, ['#', 'A'], by decide, by decide⟩

end ReorderLemmas

section ReorderClaims

/-- C6: `reorder_vocabulary` is idempotent: applying the transformation twice
yields byte-for-byte the same file contents as applying it once. -/
theorem reorder_vocabulary_idempotent (content : List Char) :
    reorder_vocabulary (reorder_vocabulary content)
      = reorder_vocabulary content := by
  unfold reorder_vocabulary
  rw [buildSections_eq_splitOnHeaders (cleanLines content)]
  have hgood : ∀ sec ∈ splitOnHeaders (cleanLines content), ∀ l ∈ sec,
      GoodLine l :=
    fun sec hsec l hl => cleanLines_good l (splitOnHeaders_mem sec hsec l hl)
  rw [cleanLines_flat_renderSections hgood]
  rw [buildSections_flat
    ((splitOnHeaders (cleanLines content)).map coreRender)
    (fun sec hsec => by
      obtain ⟨s, hs, rfl⟩ := List.mem_map.mp hsec
      exact coreRender_ne_nil (splitOnHeaders_ne_nil s hs))
    (fun sec hsec l hl => by
      obtain ⟨s, hs, rfl⟩ := List.mem_map.mp hsec
      exact coreRender_tail_no_header (splitOnHeaders_tail_no_header s hs) l hl)
    (fun sec hsec => by
      rw [← List.map_tail] at hsec
      obtain ⟨s, hs, rfl⟩ := List.mem_map.mp hsec
      exact coreRender_starts_hdr
        (splitOnHeaders_tail_no_header s (List.mem_of_mem_tail hs))
        (splitOnHeaders_tail_hdr s hs))]
  exact congrArg flat (renderSections_map_coreRender _)

/-- C7: `reorder_vocabulary` does what the spec says: drop blank lines, split
the rest into sections on header lines, keep headers at the top of their
section with the entry lines sorted case-sensitively, and join sections with
exactly one blank line between them and none after the last. -/
theorem reorder_vocabulary_matches_spec (content : List Char) :
    reorder_vocabulary content = reorder_vocabulary_spec content := by
  unfold reorder_vocabulary reorder_vocabulary_spec
  rw [buildSections_eq_splitOnHeaders]
  exact flat_renderSections_intersperse _

/-- C8 counterexample: on the file `#A\n#B\nx\n`, the sectioning loop starts a
new section at every header, so the two consecutive headers are separated by a
blank line in the output instead of staying together atop one section. -/
theorem reorder_splits_consecutive_headers :
    reorder_vocabulary ['#', 'A', '\n', '#', 'B', '\n', 'x', '\n']
        = ['#', 'A', '\n', '\n', '#', 'B', '\n', 'x', '\n'] ∧
      reorder_vocabulary ['#', 'A', '\n', '#', 'B', '\n', 'x', '\n']
        ≠ ['#', 'A', '\n', '#', 'B', '\n', 'x', '\n'] := by
  have h1 : reorder_vocabulary ['#', 'A', '\n', '#', 'B', '\n', 'x', '\n']
      = ['#', 'A', '\n', '\n', '#', 'B', '\n', 'x', '\n'] := by
    simp [reorder_vocabulary, cleanLines, splitLines, strip, isSpace,
      buildSections, startsWithHash, renderSections, renderSection, sortLines,
      flat, List.dropWhile]
  refine ⟨h1, ?_⟩
  rw [h1]
  decide

/-- C8 (amended): in the output file of `reorder_vocabulary`, parsed into its
blank-line-delimited sections — the file format's own sectioning — every
header line sits at the top of its section: a header always precedes its
section's entries, and no section carries a header after its first line.  In
particular no output section holds two headers, so consecutive input header
lines end up heading separate adjacent output sections.  (This is substantive
for the format-level parse: see `blankSections_can_misplace_headers`.) -/
theorem reorder_headers_precede_entries (content : List Char) :
    ∀ sec ∈ blankSections (reorder_vocabulary content),
      ∀ l ∈ sec.tail, startsWithHash l = false := by
  unfold reorder_vocabulary
  rw [buildSections_eq_splitOnHeaders (cleanLines content)]
  rw [blankSections_flat_renderSections
    (fun sec hsec l hl => cleanLines_good l (splitOnHeaders_mem sec hsec l hl))
    (fun sec hsec => splitOnHeaders_ne_nil sec hsec)]
  intro sec hsec l hl
  obtain ⟨s, hs, rfl⟩ := List.mem_map.mp hsec
  exact coreRender_tail_no_header (splitOnHeaders_tail_no_header s hs) l hl

/-- Witness for the amended C8 on the file `#A\nx\n`: the output's single
blank-line-delimited section has the header first and its tail is
header-free. -/
theorem reorder_headers_precede_entries_w :
    ([['#', 'A'], ['x']]
        ∈ blankSections (reorder_vocabulary ['#', 'A', '\n', 'x', '\n'])) ∧
      startsWithHash ['x'] = false := by
  have h1 : reorder_vocabulary ['#', 'A', '\n', 'x', '\n']
      = ['#', 'A', '\n', 'x', '\n'] := by
    simp [reorder_vocabulary, cleanLines, splitLines, strip, isSpace,
      buildSections, startsWithHash, renderSections, renderSection, sortLines,
      flat, List.dropWhile]
  have h2 : ([['#', 'A'], ['x']]
      ∈ blankSections (reorder_vocabulary ['#', 'A', '\n', 'x', '\n'])) := by
    rw [h1]
    decide
  exact ⟨h2,
    reorder_headers_precede_entries ['#', 'A', '\n', 'x', '\n']
      [['#', 'A'], ['x']] h2 ['x'] (by decide)⟩

/-- C10: on a vocabulary file without header lines, `reorder_vocabulary`
rewrites the file as a single section — the sorted newline-terminated non-blank
stripped lines — with no blank separator appended; a file of only blank or
whitespace lines becomes the empty file. -/
theorem reorder_vocabulary_no_headers (content : List Char)
    (h : ∀ l ∈ cleanLines content, startsWithHash l = false) :
    reorder_vocabulary content
      = flat (sortLines ((cleanLines content).map (fun l => l ++ ['\n']))) := by
  unfold reorder_vocabulary
  cases hL : cleanLines content with
  | nil => simp [buildSections, renderSections, sortLines, flat]
  | cons l0 rest =>
    rw [buildSections_nil_cons]
    rw [buildSections_entries rest [l0] (by simp)
      (fun x hx => h x (by rw [hL]; exact List.mem_cons_of_mem _ hx))]
    have hsec : ([l0] ++ rest) = l0 :: rest := by simp
    rw [hsec]
    have hone : renderSections [l0 :: rest] = renderSection (l0 :: rest) := rfl
    rw [hone]
    unfold renderSection
    have hhd : (l0 :: rest).filter startsWithHash = [] := by
      rw [List.filter_eq_nil_iff]
      intro a ha
      simp [h a (by rw [hL]; exact ha)]
    have hent : (l0 :: rest).filter (fun l => !startsWithHash l)
        = l0 :: rest := by
      rw [List.filter_eq_self]
      intro a ha
      simp [h a (by rw [hL]; exact ha)]
    rw [hhd, hent]
    simp

/-- Witness for C10 on the header-free two-line file `b\na`. -/
theorem reorder_vocabulary_no_headers_w :
    (∀ l ∈ cleanLines ['b', '\n', 'a'], startsWithHash l = false) ∧
      reorder_vocabulary ['b', '\n', 'a']
        = flat (sortLines ((cleanLines ['b', '\n', 'a']).map
          (fun l => l ++ ['\n']))) :=
  ⟨by decide, reorder_vocabulary_no_headers ['b', '\n', 'a'] (by decide)⟩

end ReorderClaims

end Rozental
